import Mathlib

/-!
Verification of the IRC message codec, stream framer and registration
handshake of the velour IRC client (package `irc`, file `msg.go` and the
client code in the same package).

Strings and byte streams are modelled as `List Char`: the Go code works
byte-wise on ASCII protocol text, and every byte value the protocol logic
inspects (`':'`, `'!'`, `'@'`, `' '`, `'\r'`, `'\n'`, NUL) is an ASCII
character.  Go's zero byte `'\000'` is written `Char.ofNat 0`.
-/

set_option maxRecDepth 8192

namespace Velour

/-- A structured IRC message, mirroring `type Msg struct` in `msg.go`.
Field names follow the Go fields `Raw`, `Origin`, `User`, `Host`, `Cmd`,
`Args`; Go's zero value `""` is the empty list. -/
structure Msg where
  raw : List Char := []
  origin : List Char := []
  user : List Char := []
  host : List Char := []
  cmd : List Char := []
  args : List (List Char) := []
deriving Repr, DecidableEq

/-- Embedding of `splitString` from `msg.go`: splits at the first occurrence
of `delim` (Go finds it with `strings.IndexRune`; here we scan recursively,
which computes the same split).  If the delimiter is absent the whole string
is the first component.  When the delimiter is a space, the run of spaces
starting at the split point is stripped from the second component, exactly
as the Go loop `for ; i < len(s) && s[i] == ' '; i++` does. -/
def splitString (s : List Char) (delim : Char) : List Char × List Char :=
  match s with
  | [] => ([], [])
  | c :: rest =>
    if c = delim then
      ([], if delim = ' ' then rest.dropWhile (fun x => x = ' ') else rest)
    else
      (c :: (splitString rest delim).1, (splitString rest delim).2)

theorem length_dropWhile_le_spaces (p : Char → Bool) (l : List Char) :
    (l.dropWhile p).length ≤ l.length := by
  induction l with
  | nil => simp
  | cons c rest ih =>
    by_cases h : p c
    · simp only [List.dropWhile_cons, if_pos h]
      exact Nat.le_succ_of_le ih
    · simp [List.dropWhile_cons, if_neg h]

theorem splitString_snd_length_lt (s : List Char) (d : Char) (h : s ≠ []) :
    (splitString s d).2.length < s.length := by
  induction s with
  | nil => exact absurd rfl h
  | cons c rest ih =>
    simp only [splitString]
    by_cases hc : c = d
    · simp only [if_pos hc]
      split
      · exact Nat.lt_succ_of_le (length_dropWhile_le_spaces _ _)
      · exact Nat.lt_succ_of_le (Nat.le_refl _)
    · simp only [if_neg hc]
      cases rest with
      | nil => simp [splitString]
      | cons c2 r2 =>
        exact Nat.lt_trans (ih (by simp)) (by simp)

/-- Embedding of the argument-extraction loop at the end of `ParseMsg` in
`msg.go`: while text remains, a leading `':'` makes the remainder (minus the
colon) one final argument; otherwise the next space-delimited token is taken
with `splitString` and the loop continues. -/
def parseArgs (data : List Char) (acc : List (List Char)) : List (List Char) :=
  match data with
  | [] => acc
  | c :: rest =>
    if c = ':' then acc ++ [rest]
    else
      parseArgs (splitString (c :: rest) ' ').2 (acc ++ [(splitString (c :: rest) ' ').1])
termination_by data.length
decreasing_by
  exact splitString_snd_length_lt _ _ (by simp)

/-- Embedding of `ParseMsg` from `msg.go`.  Go indexes `data[0]`
unconditionally, which panics (index out of range) on the empty string; the
panic is modelled as `none`.  For non-empty input the function always
produces a message: a leading `':'` introduces the prefix, which is split on
the first `'!'` into origin and remainder and the remainder on the first
`'@'` into user and host; the next token is the command and the rest is fed
to the argument loop.  The whole input is kept verbatim in `raw`. -/
def ParseMsg (data : List Char) : Option Msg :=
  match data with
  | [] => none
  | c :: _ =>
    if c = ':' then
      some { raw := data
             origin := (splitString (splitString data.tail ' ').1 '!').1
             user := (splitString (splitString (splitString data.tail ' ').1 '!').2 '@').1
             host := (splitString (splitString (splitString data.tail ' ').1 '!').2 '@').2
             cmd := (splitString (splitString data.tail ' ').2 ' ').1
             args := parseArgs (splitString (splitString data.tail ' ').2 ' ').2 [] }
    else
      some { raw := data
             origin := []
             user := []
             host := []
             cmd := (splitString data ' ').1
             args := parseArgs (splitString data ' ').2 [] }

/-- MaxMsgLength from `msg.go`: the maximum length of a message in bytes. -/
def MaxMsgLength : Nat := 512

/-- MsgMarker from `msg.go`: the `"\r\n"` marker delineating messages in the
TCP stream. -/
def MsgMarker : List Char := ['\r', '\n']

/-- MsgTooLong from `msg.go`: the error for a message longer than
`MaxMsgLength` bytes, carrying the truncated message text and the number of
truncated bytes. -/
structure MsgTooLong where
  msg : List Char
  nTrunc : Nat
deriving Repr, DecidableEq

/-- Embedding of the argument-serialization loop of `Msg.RawString`: every
argument is appended preceded by a space, except the last, which is preceded
by `" :"`. -/
def argString : List (List Char) → List Char
  | [] => []
  | [a] => ' ' :: ':' :: a
  | a :: rest => (' ' :: a) ++ argString rest

/-- Embedding of `strings.TrimRight(raw, "\n")` in `Msg.RawString`: strips
trailing newline characters. -/
def trimRightNewline (s : List Char) : List Char :=
  (s.reverse.dropWhile (fun c => c = '\n')).reverse

/-- The candidate raw line that `Msg.RawString` builds before its length
check: `Raw` verbatim when non-empty, otherwise the line assembled from
origin (with `!user@host` when the user is set), command and arguments. -/
def rawCandidate (m : Msg) : List Char :=
  if m.raw ≠ [] then m.raw
  else
    (if m.origin ≠ [] then
      (':' :: m.origin) ++
        (if m.user ≠ [] then ('!' :: m.user) ++ ('@' :: m.host) else []) ++ [' ']
    else []) ++ m.cmd ++ argString m.args

/-- Embedding of `Msg.RawString` from `msg.go`.  The local variable `raw`
of the Go function is `rawCandidate`: `Raw` verbatim when non-empty (the
`goto out` path), otherwise the line assembled from the fields.  Either way
(the label `out` is reached on both paths), if the line is longer than
`MaxMsgLength - len(MsgMarker)` bytes a `MsgTooLong` error is returned
carrying the line and the excess byte count; otherwise the line with
trailing newlines stripped is returned. -/
def RawString (m : Msg) : Except MsgTooLong (List Char) :=
  if (rawCandidate m).length > MaxMsgLength - MsgMarker.length then
    .error { msg := rawCandidate m
             nTrunc := (rawCandidate m).length - (MaxMsgLength - MsgMarker.length) }
  else
    .ok (trimRightNewline (rawCandidate m))

/-- Result classification of `readMsgData` in `msg.go`.  `eof` is the
ordinary `io.EOF` propagated when the stream ends with an empty buffer;
`eofMid` is `unexpected("end of file")`; `nul` is `unexpected("null")`;
`bareCR` is `unexpected("carrage return")` (sic); `tooLong` is the
`MsgTooLong` error. -/
inductive ReadErr where
  | eof
  | eofMid
  | nul
  | bareCR
  | tooLong (e : MsgTooLong)
deriving Repr, DecidableEq

/-- Embedding of `junk` from `msg.go`: reads and discards bytes until the
two-byte message marker `"\r\n"` is found.  `last` is the previously read
byte (initially the zero byte) and `n` the Go counter at loop entry; Go
increments `n` for each byte read and returns `n - 1` when the marker
completes, or the current count if the stream ends first.  The returned pair
is (count, remaining stream). -/
def junk (last : Char) (n : Nat) : List Char → Nat × List Char
  | [] => (n, [])
  | c :: rest =>
    if last = '\r' ∧ c = '\n' then (n, rest)
    else junk c (n + 1) rest

/-- Embedding of `readMsgData` from `msg.go`.  The state is the accumulated
buffer `msg` and the remaining stream.  In the order of the Go `switch`:
end of stream with a non-empty buffer is `eofMid` and with an empty buffer
ordinary `eof`; a zero byte is `nul`; a bare `'\n'` is silently stripped; a
`'\r'` must be followed by `'\n'` (else `bareCR`; at end of stream
`eofMid`), completing the line when the buffer is non-empty and being
skipped as an empty line otherwise; once the buffer holds
`MaxMsgLength - 2` bytes a further ordinary byte triggers `junk` and a
`tooLong` error carrying the buffer minus its last byte and the junk count
plus one; otherwise the byte is appended.  The returned pair is (result,
remaining stream). -/
def readMsgData (msg : List Char) : List Char → Except ReadErr (List Char) × List Char
  | [] => if msg = [] then (.error .eof, []) else (.error .eofMid, [])
  | c :: rest =>
    if c = Char.ofNat 0 then (.error .nul, rest)
    else if c = '\n' then readMsgData msg rest
    else if c = '\r' then
      match rest with
      | [] => (.error .eofMid, [])
      | c2 :: rest2 =>
        if c2 ≠ '\n' then (.error .bareCR, rest2)
        else if msg = [] then readMsgData [] rest2
        else (.ok msg, rest2)
    else if msg.length ≥ MaxMsgLength - 2 then
      ((.error (.tooLong { msg := msg.take (msg.length - 1)
                           nTrunc := (junk (Char.ofNat 0) 0 rest).1 + 1 })),
       (junk (Char.ofNat 0) 0 rest).2)
    else readMsgData (msg ++ [c]) rest
termination_by s => s.length
decreasing_by
  all_goals simp
  omega

/-- Driver for repeated framer calls, as the read loop `readMsgs` performs
them: collect the lines of successive `readMsgData` calls (each resuming on
the stream the previous call left) until a call returns an error, which is
also reported.  The fuel bounds the number of calls; `none` means the fuel
ran out before an error was reached. -/
def runFramer : Nat → List Char → List (List Char) × Option ReadErr
  | 0, _ => ([], none)
  | fuel + 1, s =>
    match readMsgData [] s with
    | (.ok m, rest) => ((m :: (runFramer fuel rest).1), (runFramer fuel rest).2)
    | (.error e, _) => ([], some e)

/-- Command constant `PING` from `msg.go`. -/
def PING : List Char := "PING".toList

/-- Command constant `PONG` from `msg.go`. -/
def PONG : List Char := "PONG".toList

/-- Numeric reply constant `RPL_WELCOME` from `msg.go`. -/
def RPL_WELCOME : List Char := "001".toList

/-- Numeric reply constant `ERR_NONICKNAMEGIVEN` from `msg.go`. -/
def ERR_NONICKNAMEGIVEN : List Char := "431".toList

/-- Numeric reply constant `ERR_ERRONEUSNICKNAME` from `msg.go`. -/
def ERR_ERRONEUSNICKNAME : List Char := "432".toList

/-- Numeric reply constant `ERR_NICKNAMEINUSE` from `msg.go`. -/
def ERR_NICKNAMEINUSE : List Char := "433".toList

/-- Numeric reply constant `ERR_NICKCOLLISION` from `msg.go`. -/
def ERR_NICKCOLLISION : List Char := "436".toList

/-- Numeric reply constant `ERR_UNAVAILRESOURCE` from `msg.go`. -/
def ERR_UNAVAILRESOURCE : List Char := "437".toList

/-- Numeric reply constant `ERR_RESTRICTED` from `msg.go`. -/
def ERR_RESTRICTED : List Char := "484".toList

/-- Numeric reply constant `ERR_NEEDMOREPARAMS` from `msg.go`. -/
def ERR_NEEDMOREPARAMS : List Char := "461".toList

/-- Numeric reply constant `ERR_ALREADYREGISTRED` from `msg.go` (sic). -/
def ERR_ALREADYREGISTRED : List Char := "462".toList

/-- The eight classified registration-error numerics of the `switch` in
`Client.register` (client code of the `irc` package). -/
def regErrCmds : List (List Char) :=
  [ERR_NONICKNAMEGIVEN, ERR_ERRONEUSNICKNAME, ERR_NICKNAMEINUSE, ERR_NICKCOLLISION,
   ERR_UNAVAILRESOURCE, ERR_RESTRICTED, ERR_NEEDMOREPARAMS, ERR_ALREADYREGISTRED]

/-- The `CmdNames` lookup table from `msg.go`, restricted to the eight keys
that `Client.register` ever looks up (the full Go map also names every other
command and numeric, but `register` consults it only for the eight
registration-error numerics); any other key yields the Go map default,
the empty string. -/
def CmdNames (c : List Char) : List Char :=
  if c = ERR_NONICKNAMEGIVEN then "ERR_NONICKNAMEGIVEN".toList
  else if c = ERR_ERRONEUSNICKNAME then "ERR_ERRONEUSNICKNAME".toList
  else if c = ERR_NICKNAMEINUSE then "ERR_NICKNAMEINUSE".toList
  else if c = ERR_NICKCOLLISION then "ERR_NICKCOLLISION".toList
  else if c = ERR_UNAVAILRESOURCE then "ERR_UNAVAILRESOURCE".toList
  else if c = ERR_RESTRICTED then "ERR_RESTRICTED".toList
  else if c = ERR_NEEDMOREPARAMS then "ERR_NEEDMOREPARAMS".toList
  else if c = ERR_ALREADYREGISTRED then "ERR_ALREADYREGISTRED".toList
  else []

/-- Embedding of the inbound loop of `Client.register` (the `for msg :=
range c.In` loop): the inbound messages are consumed in order; a classified
error numeric fails registration with the reply's last argument (Go's
`msg.Args[len(msg.Args)-1]`, guarded by `len > 0`) or, with no arguments,
the `CmdNames` entry for the numeric; `RPL_WELCOME` succeeds, recording the
reply's origin as the server identity; a `PING` is answered with a `PONG`
echoing the same arguments and the loop continues; anything else is
ignored.  An exhausted inbound list is the closed channel, Go's
`errors.New("unexpected end of file")`.  The second component collects the
`PONG` messages sent while negotiating. -/
def registerLoop : List Msg → Except (List Char) (List Char) × List Msg
  | [] => (.error "unexpected end of file".toList, [])
  | m :: rest =>
    if m.cmd ∈ regErrCmds then
      if m.args ≠ [] then (.error (m.args.getLastD []), [])
      else (.error (CmdNames m.cmd), [])
    else if m.cmd = RPL_WELCOME then (.ok m.origin, [])
    else if m.cmd = PING then
      ((registerLoop rest).1, { cmd := PONG, args := m.args : Msg } :: (registerLoop rest).2)
    else registerLoop rest

/-- C2 counterexample: the claim says parsing is total on all strings
including the empty string, but `ParseMsg` in `msg.go` reads `data[0]`
unconditionally, which panics (index out of range) on the empty string; the
panic is `none` in the embedding. -/
theorem c2_parse_empty_panics : ParseMsg [] = none := rfl

/-- C2 (amended): for every non-empty input string, `ParseMsg` returns a
structured message and never fails; malformed input yields a best-effort
message rather than an error. -/
theorem c2_parse_total_nonempty (data : List Char) (h : data ≠ []) :
    ∃ m, ParseMsg data = some m := by
  cases data with
  | nil => exact absurd rfl h
  | cons c rest =>
    simp only [ParseMsg]
    by_cases hc : c = ':'
    · exact ⟨_, by rw [if_pos hc]⟩
    · exact ⟨_, by rw [if_neg hc]⟩

theorem c2_parse_total_nonempty_witness :
    ("JOIN #ch".toList ≠ []) ∧ ∃ m, ParseMsg "JOIN #ch".toList = some m :=
  ⟨by decide, c2_parse_total_nonempty "JOIN #ch".toList (by decide)⟩

/-- C7: parsing `"JOIN #test54321 :foo bar"` yields the arguments
`["#test54321", "foo bar"]` and parsing `"JOIN #test54321 ::foo bar"`
yields `["#test54321", ":foo bar"]`: a leading colon on the remaining text
starts one final trailing argument consumed in full, minus only the first
colon. -/
theorem c7_trailing_colon_argument :
    (ParseMsg "JOIN #test54321 :foo bar".toList).map Msg.args =
      some ["#test54321".toList, "foo bar".toList] ∧
    (ParseMsg "JOIN #test54321 ::foo bar".toList).map Msg.args =
      some ["#test54321".toList, ":foo bar".toList] := by
  constructor <;> simp [ParseMsg, parseArgs, splitString]

/-- C5: serialization fails if and only if the candidate line exceeds
`MaxMsgLength - len(MsgMarker) = 510` bytes, and on failure the
`MsgTooLong` error reports the candidate string and the number of bytes by
which it exceeds that bound. -/
theorem c5_serialize_fails_iff_too_long (m : Msg) :
    ((∃ e, RawString m = .error e) ↔
      MaxMsgLength - MsgMarker.length < (rawCandidate m).length) ∧
    (∀ e, RawString m = .error e →
      e.msg = rawCandidate m ∧
      e.nTrunc = (rawCandidate m).length - (MaxMsgLength - MsgMarker.length)) := by
  unfold RawString
  by_cases h : (rawCandidate m).length > MaxMsgLength - MsgMarker.length
  · rw [if_pos h]
    refine ⟨⟨fun _ => h, fun _ => ⟨_, rfl⟩⟩, ?_⟩
    intro e he
    cases he
    exact ⟨rfl, rfl⟩
  · rw [if_neg h]
    refine ⟨⟨?_, fun hlt => absurd hlt h⟩, ?_⟩
    · rintro ⟨e, he⟩
      cases he
    · intro e he
      cases he

theorem c5_serialize_fails_iff_too_long_witness :
    ((∃ e, RawString { raw := List.replicate 511 'a' : Msg } = .error e) ↔
      MaxMsgLength - MsgMarker.length <
        (rawCandidate { raw := List.replicate 511 'a' : Msg }).length) ∧
    ∃ e, RawString { raw := List.replicate 511 'a' : Msg } = .error e ∧
      e.msg = List.replicate 511 'a' ∧ e.nTrunc = 1 := by
  have h := c5_serialize_fails_iff_too_long { raw := List.replicate 511 'a' : Msg }
  have hlen : MaxMsgLength - MsgMarker.length <
      (rawCandidate { raw := List.replicate 511 'a' : Msg }).length := by
    simp [rawCandidate, MaxMsgLength, MsgMarker]
  obtain ⟨e, he⟩ := h.1.mpr hlen
  refine ⟨h.1, e, he, ?_⟩
  have h2 := h.2 e he
  constructor
  · rw [h2.1]; simp [rawCandidate]
  · rw [h2.2]; simp [rawCandidate, MaxMsgLength, MsgMarker]

/-- C6 counterexample: the claim says a message with non-empty `raw` always
serializes to `raw` with trailing newlines stripped, but the length check
in `Msg.RawString` sits after the `out` label and so also applies to the
verbatim-`raw` path: a 511-byte raw field yields a `MsgTooLong` error, not
a success. -/
theorem c6_long_raw_fails :
    ({ raw := List.replicate 511 'a' : Msg }.raw ≠ [] ∧
      ∀ s, RawString { raw := List.replicate 511 'a' : Msg } ≠ .ok s) := by
  constructor
  · simp
  · intro s hs
    have hlen : MaxMsgLength - MsgMarker.length <
        (rawCandidate { raw := List.replicate 511 'a' : Msg }).length := by
      simp [rawCandidate, MaxMsgLength, MsgMarker]
    rw [RawString, if_pos hlen] at hs
    cases hs

/-- C6 (amended): for every message m whose raw field is non-empty and at
most `MaxMsgLength - len(MsgMarker) = 510` bytes long, serialization
returns raw with trailing newline characters stripped (the stored verbatim
form, not rebuilt from the other fields). -/
theorem c6_raw_passthrough (m : Msg) (h : m.raw ≠ [])
    (hlen : m.raw.length ≤ MaxMsgLength - MsgMarker.length) :
    RawString m = .ok (trimRightNewline m.raw) := by
  have hc : rawCandidate m = m.raw := by simp [rawCandidate, h]
  rw [RawString, hc, if_neg (by omega)]

theorem c6_raw_passthrough_witness :
    RawString { raw := "PING :x\n".toList : Msg } =
      .ok (trimRightNewline "PING :x\n".toList) :=
  c6_raw_passthrough _ (by decide) (by decide)

/-- C8: the framer classifies malformed streams exactly as claimed: the
byte stream `"a\r\r\n"` fails with the bare-carriage-return error,
`"hello\x00\r\n"` fails with the embedded-nul error, and the stream `"a"`
ending without a terminator fails with the truncated-stream error
(`unexpected end of file`). -/
theorem c8_malformed_stream_classification :
    (readMsgData [] "a\r\r\n".toList).1 = .error .bareCR ∧
    (readMsgData [] ("hello".toList ++ [Char.ofNat 0] ++ "\r\n".toList)).1 =
      .error .nul ∧
    (readMsgData [] "a".toList).1 = .error .eofMid := by
  refine ⟨?_, ?_, ?_⟩ <;> simp [readMsgData, MaxMsgLength]

theorem readMsgData_ok_invariant (msg s : List Char) :
    (∀ c ∈ msg, c ≠ Char.ofNat 0 ∧ c ≠ '\r' ∧ c ≠ '\n') →
    msg.length ≤ MaxMsgLength - 2 →
    ∀ out rest, readMsgData msg s = (.ok out, rest) →
      out ≠ [] ∧ out.length ≤ MaxMsgLength - 2 ∧
        ∀ c ∈ out, c ≠ Char.ofNat 0 ∧ c ≠ '\r' ∧ c ≠ '\n' := by
  induction msg, s using readMsgData.induct with
  | case1 =>
    intro _ _ out rest h
    rw [readMsgData.eq_def] at h
    simp at h
  | case2 msg hne =>
    intro _ _ out rest h
    rw [readMsgData.eq_def] at h
    simp [hne] at h
  | case3 msg rest =>
    intro _ _ out rest2 h
    rw [readMsgData.eq_def] at h
    simp at h
  | case4 msg rest hne ih =>
    intro h1 h2 out rest2 h
    rw [readMsgData.eq_def] at h
    simp only [List.cons.injEq] at h
    rw [if_neg hne] at h
    simp only [if_true] at h
    exact ih h1 h2 out rest2 h
  | case5 msg h0 hn =>
    intro _ _ out rest h
    rw [readMsgData.eq_def] at h
    simp at h
  | case6 msg c rest hc h0 hn =>
    intro _ _ out rest2 h
    rw [readMsgData.eq_def] at h
    simp [hc] at h
  | case7 c rest hc h0 hn ih =>
    intro h1 h2 out rest2 h
    rw [readMsgData.eq_def] at h
    simp only [hc, reduceIte, if_false, if_true] at h
    rw [if_neg h0, if_neg hn] at h
    exact ih (by simp) (by simp [MaxMsgLength]) out rest2 h
  | case8 msg c rest hc hne h0 hn =>
    intro h1 h2 out rest2 h
    rw [readMsgData.eq_def] at h
    simp only [hc, hne, reduceIte, if_false, if_true] at h
    obtain ⟨rfl, rfl⟩ : out = msg ∧ rest2 = rest := by
      rw [Prod.mk.injEq] at h
      exact ⟨(Except.ok.injEq _ _).mp h.1.symm, h.2.symm⟩
    exact ⟨hne, h2, h1⟩
  | case9 msg c rest h0 hn hr hlong =>
    intro _ _ out rest2 h
    rw [readMsgData.eq_def] at h
    simp [h0, hn, hr, hlong] at h
  | case10 msg c rest h0 hn hr hshort ih =>
    intro h1 h2 out rest2 h
    rw [readMsgData.eq_def] at h
    simp only [h0, hn, hr, hshort, reduceIte, if_false] at h
    refine ih ?_ ?_ out rest2 h
    · intro x hx
      rcases List.mem_append.mp hx with hx | hx
      · exact h1 x hx
      · rcases List.mem_singleton.mp hx with rfl
        exact ⟨h0, hr, hn⟩
    · have : msg.length < MaxMsgLength - 2 := Nat.lt_of_not_le hshort
      simp [Nat.succ_le_of_lt this]

/-- C10: every line the framer returns successfully is non-empty, is at
most `MaxMsgLength - 2 = 510` bytes long, and contains no NUL, carriage
return or line feed; in particular `readMsgData` never hands the parser an
empty string. -/
theorem c10_framer_ok_lines_clean (s out rest : List Char)
    (h : readMsgData [] s = (.ok out, rest)) :
    out ≠ [] ∧ out.length ≤ MaxMsgLength - 2 ∧
      ∀ c ∈ out, c ≠ Char.ofNat 0 ∧ c ≠ '\r' ∧ c ≠ '\n' :=
  readMsgData_ok_invariant [] s (by simp) (by simp [MaxMsgLength]) out rest h

theorem c10_framer_ok_lines_clean_witness :
    ['a'] ≠ [] ∧ (['a'] : List Char).length ≤ MaxMsgLength - 2 ∧
      ∀ c ∈ (['a'] : List Char), c ≠ Char.ofNat 0 ∧ c ≠ '\r' ∧ c ≠ '\n' :=
  c10_framer_ok_lines_clean "a\r\nb".toList ['a'] ['b']
    (by simp [readMsgData, MaxMsgLength])

theorem junk_marker (p : List Char) (hp : ∀ c ∈ p, c ≠ '\r' ∧ c ≠ '\n') :
    ∀ (last : Char) (n : Nat) (rest : List Char),
      junk last n (p ++ '\r' :: '\n' :: rest) = (n + p.length + 1, rest) := by
  induction p with
  | nil =>
    intro last n rest
    simp only [List.nil_append, junk]
    rw [if_neg (fun hand => absurd hand.2 (by decide))]
    simp [junk]
  | cons x p2 ih =>
    intro last n rest
    simp only [List.cons_append, junk]
    rw [if_neg (fun hand => (hp x (by simp)).2 hand.2)]
    simp only [List.append_eq]
    rw [ih (fun c hc => hp c (by simp [hc])) x (n + 1) rest]
    simp only [Prod.mk.injEq, List.length_cons, and_true]
    omega

theorem readMsgData_line (l : List Char)
    (hl : ∀ c ∈ l, c ≠ Char.ofNat 0 ∧ c ≠ '\r' ∧ c ≠ '\n') :
    ∀ (msg rest : List Char), msg ++ l ≠ [] →
      (msg ++ l).length ≤ MaxMsgLength - 2 →
      readMsgData msg (l ++ '\r' :: '\n' :: rest) = (.ok (msg ++ l), rest) := by
  induction l with
  | nil =>
    intro msg rest hne hlen
    simp only [List.append_nil] at hne
    rw [readMsgData.eq_def]
    simp [hne]
  | cons x l2 ih =>
    intro msg rest hne hlen
    have hx := hl x (by simp)
    have hlen2 : ¬(msg.length ≥ MaxMsgLength - 2) := by
      simp only [List.length_append, List.length_cons] at hlen ⊢
      omega
    rw [readMsgData.eq_def]
    simp only [List.cons_append, List.append_eq]
    rw [if_neg hx.1, if_neg hx.2.2, if_neg hx.2.1, if_neg hlen2]
    have hstep := ih (fun c hc => hl c (by simp [hc])) (msg ++ [x]) rest
      (by simp)
      (by simp only [List.length_append, List.length_singleton]
          simp only [List.length_append, List.length_cons] at hlen
          omega)
    rw [List.append_assoc] at hstep
    simp only [List.singleton_append] at hstep
    rw [hstep]

theorem readMsgData_tooLong (l : List Char)
    (hl : ∀ c ∈ l, c ≠ Char.ofNat 0 ∧ c ≠ '\r' ∧ c ≠ '\n') :
    ∀ (msg rest : List Char), msg.length ≤ MaxMsgLength - 2 →
      (msg ++ l).length ≥ MaxMsgLength - 1 →
      readMsgData msg (l ++ '\r' :: '\n' :: rest) =
        (.error (.tooLong
          { msg := (msg ++ l.take (MaxMsgLength - 2 - msg.length)).take (MaxMsgLength - 3)
            nTrunc := msg.length + l.length - (MaxMsgLength - 3) }), rest) := by
  induction l with
  | nil =>
    intro msg rest hmax hlen
    simp only [List.append_nil, List.length_append, List.length_nil] at hlen
    simp only [MaxMsgLength] at hmax hlen
    omega
  | cons x l2 ih =>
    intro msg rest hmax hlen
    have hx := hl x (by simp)
    rw [readMsgData.eq_def]
    simp only [List.cons_append, List.append_eq]
    rw [if_neg hx.1, if_neg hx.2.2, if_neg hx.2.1]
    by_cases hfull : msg.length ≥ MaxMsgLength - 2
    · rw [if_pos hfull]
      have hmsglen : msg.length = MaxMsgLength - 2 := le_antisymm hmax hfull
      have hjunk := junk_marker l2
        (fun c hc => ⟨(hl c (by simp [hc])).2.1, (hl c (by simp [hc])).2.2⟩)
        (Char.ofNat 0) 0 rest
      rw [hjunk]
      have e1 : (msg ++ (x :: l2).take (MaxMsgLength - 2 - msg.length)).take (MaxMsgLength - 3) =
          msg.take (msg.length - 1) := by
        have h0 : MaxMsgLength - 2 - msg.length = 0 := by omega
        rw [h0, List.take_zero, List.append_nil]
        congr 1
        simp only [MaxMsgLength] at hmsglen ⊢
        omega
      have e2 : msg.length + (x :: l2).length - (MaxMsgLength - 3) = 0 + l2.length + 1 + 1 := by
        simp only [List.length_cons]
        simp only [MaxMsgLength] at hmsglen ⊢
        omega
      rw [e1, e2]
    · rw [if_neg hfull]
      have hstep := ih (fun c hc => hl c (by simp [hc])) (msg ++ [x]) rest
        (by simp only [List.length_append, List.length_singleton]
            simp only [MaxMsgLength] at hfull ⊢
            omega)
        (by simp only [List.length_append, List.length_singleton, List.length_cons] at hlen ⊢
            omega)
      rw [List.append_assoc] at hstep
      simp only [List.singleton_append] at hstep
      rw [hstep]
      have e1 : msg ++ x :: List.take (MaxMsgLength - 2 - (msg ++ [x]).length) l2 =
          msg ++ List.take (MaxMsgLength - 2 - msg.length) (x :: l2) := by
        congr 1
        have h1 : MaxMsgLength - 2 - msg.length = (MaxMsgLength - 2 - (msg ++ [x]).length) + 1 := by
          simp only [List.length_append, List.length_singleton, List.length_cons,
            List.length_nil]
          simp only [MaxMsgLength] at hfull ⊢
          omega
        rw [h1, List.take_succ_cons]
      have e2 : (msg ++ [x]).length + l2.length - (MaxMsgLength - 3) =
          msg.length + (x :: l2).length - (MaxMsgLength - 3) := by
        simp only [List.length_append, List.length_singleton, List.length_cons,
          List.length_nil]
        omega
      rw [e1, e2]

/-- C3: a line of exactly `MaxMsgLength - 2 = 510` payload bytes followed
by the CR LF terminator is accepted and returned whole; a line of
`511` or more payload bytes fails with `MsgTooLong` carrying the truncated
prefix of `509` bytes (one shorter than the 510-byte cutoff) and
`l.length - 509` discarded bytes, which is exactly the count `junk`
reports when resynchronizing at the next terminator (`l.length - 510`)
plus one. -/
theorem c3_length_boundary (l rest : List Char)
    (hl : ∀ c ∈ l, c ≠ Char.ofNat 0 ∧ c ≠ '\r' ∧ c ≠ '\n') :
    (l.length = MaxMsgLength - 2 →
      readMsgData [] (l ++ '\r' :: '\n' :: rest) = (.ok l, rest)) ∧
    (l.length ≥ MaxMsgLength - 1 →
      readMsgData [] (l ++ '\r' :: '\n' :: rest) =
        (.error (.tooLong { msg := l.take (MaxMsgLength - 3)
                            nTrunc := l.length - (MaxMsgLength - 3) }), rest)) := by
  constructor
  · intro hlen
    exact readMsgData_line l hl [] rest
      (by intro hcon; rw [List.nil_append] at hcon; subst hcon; simp [MaxMsgLength] at hlen)
      (by simpa using Nat.le_of_eq hlen)
  · intro hlen
    have h := readMsgData_tooLong l hl [] rest (by simp) (by simpa using hlen)
    rw [h]
    have e1 : (([] : List Char) ++ l.take (MaxMsgLength - 2 - ([] : List Char).length)).take
        (MaxMsgLength - 3) = l.take (MaxMsgLength - 3) := by
      simp only [List.length_nil, Nat.sub_zero, List.nil_append]
      rw [List.take_take]
      congr 1
    have e2 : ([] : List Char).length + l.length - (MaxMsgLength - 3) =
        l.length - (MaxMsgLength - 3) := by
      simp
    simp only [e1, e2]

theorem c3_length_boundary_witness :
    readMsgData [] (List.replicate 510 'a' ++ '\r' :: '\n' :: []) =
      (.ok (List.replicate 510 'a'), []) ∧
    readMsgData [] (List.replicate 511 'a' ++ '\r' :: '\n' :: []) =
      (.error (.tooLong { msg := List.replicate 509 'a', nTrunc := 2 }), []) := by
  have h510 := (c3_length_boundary (List.replicate 510 'a') []
    (by intro c hc; rw [List.eq_of_mem_replicate hc]; exact ⟨by decide, by decide, by decide⟩)).1
    (by simp [MaxMsgLength])
  have h511 := (c3_length_boundary (List.replicate 511 'a') []
    (by intro c hc; rw [List.eq_of_mem_replicate hc]; exact ⟨by decide, by decide, by decide⟩)).2
    (by simp [MaxMsgLength])
  refine ⟨h510, ?_⟩
  rw [h511]
  have e1 : (List.replicate 511 'a').take (MaxMsgLength - 3) = List.replicate 509 'a' := by
    rw [List.take_replicate]
    congr 1
  have e2 : (List.replicate 511 'a').length - (MaxMsgLength - 3) = 2 := by
    simp [MaxMsgLength]
  simp only [e1, e2]

/-- A chunk of a well-formed input stream for the framing-conservation
statement: a well-formed non-empty terminated line, an empty line (bare
`"\r\n"`), or a bare `'\n'` byte. -/
inductive Chunk where
  | emptyLine
  | bareLF
  | line (l : List Char)

/-- The bytes a chunk contributes to the stream. -/
def Chunk.bytes : Chunk → List Char
  | .emptyLine => ['\r', '\n']
  | .bareLF => ['\n']
  | .line l => l ++ ['\r', '\n']

/-- The payload a chunk contributes to the framed output. -/
def Chunk.lineOf : Chunk → Option (List Char)
  | .line l => some l
  | _ => none

/-- The byte stream assembled from a chunk list. -/
def chunkStream (cs : List Chunk) : List Char := (cs.map Chunk.bytes).flatten

/-- The payload lines of a chunk list, in stream order. -/
def chunkLines (cs : List Chunk) : List (List Char) := cs.filterMap Chunk.lineOf

/-- A line chunk is well formed when its payload is non-empty, fits in a
frame, and contains no NUL, CR or LF; noise chunks are always fine. -/
def goodChunk : Chunk → Prop
  | .line l => l ≠ [] ∧ l.length ≤ MaxMsgLength - 2 ∧
      ∀ c ∈ l, c ≠ Char.ofNat 0 ∧ c ≠ '\r' ∧ c ≠ '\n'
  | _ => True

theorem readMsgData_skip_emptyLine (s : List Char) :
    readMsgData [] ('\r' :: '\n' :: s) = readMsgData [] s := by
  rw [readMsgData.eq_def]
  simp

theorem readMsgData_skip_LF (s : List Char) :
    readMsgData [] ('\n' :: s) = readMsgData [] s := by
  rw [readMsgData.eq_def]
  simp

theorem runFramer_congr (f : Nat) (s s' : List Char)
    (h : readMsgData [] s = readMsgData [] s') :
    runFramer (f + 1) s = runFramer (f + 1) s' := by
  simp only [runFramer]
  rw [h]

theorem runFramer_chunks (cs : List Chunk) :
    ∀ fuel, fuel ≥ cs.length + 1 → (∀ ch ∈ cs, goodChunk ch) →
      runFramer fuel (chunkStream cs) = (chunkLines cs, some .eof) := by
  induction cs with
  | nil =>
    intro fuel hf hg
    match fuel, hf with
    | f + 1, _ =>
      simp only [chunkStream, chunkLines, List.map_nil, List.flatten_nil, List.filterMap_nil]
      rw [runFramer]
      rw [show readMsgData [] [] = (.error .eof, []) from by rw [readMsgData.eq_def]; simp]
  | cons ch cs2 ih =>
    intro fuel hf hg
    match fuel, hf with
    | f + 1, hf =>
      have hf2 : f + 1 ≥ cs2.length + 1 := by
        simp only [List.length_cons] at hf
        omega
      have hg2 : ∀ c ∈ cs2, goodChunk c := fun c hc => hg c (by simp [hc])
      cases ch with
      | emptyLine =>
        have hs : chunkStream (Chunk.emptyLine :: cs2) = '\r' :: '\n' :: chunkStream cs2 := by
          simp [chunkStream, Chunk.bytes]
        have hlines : chunkLines (Chunk.emptyLine :: cs2) = chunkLines cs2 := by
          simp [chunkLines, Chunk.lineOf]
        rw [hlines, runFramer_congr f (chunkStream (Chunk.emptyLine :: cs2)) (chunkStream cs2)
          (by rw [hs, readMsgData_skip_emptyLine])]
        exact ih (f + 1) hf2 hg2
      | bareLF =>
        have hs : chunkStream (Chunk.bareLF :: cs2) = '\n' :: chunkStream cs2 := by
          simp [chunkStream, Chunk.bytes]
        have hlines : chunkLines (Chunk.bareLF :: cs2) = chunkLines cs2 := by
          simp [chunkLines, Chunk.lineOf]
        rw [hlines, runFramer_congr f (chunkStream (Chunk.bareLF :: cs2)) (chunkStream cs2)
          (by rw [hs, readMsgData_skip_LF])]
        exact ih (f + 1) hf2 hg2
      | line l =>
        have hgl' := hg (Chunk.line l) (by simp)
        simp only [goodChunk] at hgl'
        have hgl : l ≠ [] ∧ l.length ≤ MaxMsgLength - 2 ∧
            ∀ c ∈ l, c ≠ Char.ofNat 0 ∧ c ≠ '\r' ∧ c ≠ '\n' := hgl'
        have hs : chunkStream (Chunk.line l :: cs2) = l ++ '\r' :: '\n' :: chunkStream cs2 := by
          simp [chunkStream, Chunk.bytes]
        have hread : readMsgData [] (chunkStream (Chunk.line l :: cs2)) =
            (.ok l, chunkStream cs2) := by
          rw [hs]
          have := readMsgData_line l hgl.2.2 [] (chunkStream cs2)
            (by simpa using hgl.1) (by simpa using hgl.2.1)
          simpa using this
        have hlines : chunkLines (Chunk.line l :: cs2) = l :: chunkLines cs2 := by
          simp [chunkLines, Chunk.lineOf]
        rw [hlines]
        simp only [runFramer]
        rw [hread]
        have hff : f ≥ cs2.length + 1 := by
          simp only [List.length_cons] at hf
          omega
        dsimp only
        rw [ih f hff hg2]

/-- C4: for every byte stream consisting of well-formed CR-LF-terminated
non-empty lines, possibly interleaved with empty lines (bare CR LF) and
bare LF bytes, repeated calls to `readMsgData` (driven by `runFramer`)
yield exactly those lines in their original stream order, followed by the
ordinary end-of-stream signal `ReadErr.eof`. -/
theorem c4_framing_conservation (cs : List Chunk)
    (hg : ∀ ch ∈ cs, goodChunk ch) :
    runFramer (cs.length + 1) (chunkStream cs) = (chunkLines cs, some .eof) :=
  runFramer_chunks cs (cs.length + 1) (Nat.le_refl _) hg

theorem c4_framing_conservation_witness :
    runFramer 5 (chunkStream [Chunk.bareLF, Chunk.line ['a'], Chunk.emptyLine, Chunk.line ['b']]) =
      ([['a'], ['b']], some .eof) := by
  have h := c4_framing_conservation
    [Chunk.bareLF, Chunk.line ['a'], Chunk.emptyLine, Chunk.line ['b']]
    (by simp [goodChunk, MaxMsgLength])
  simpa [chunkLines, Chunk.lineOf] using h

theorem registerLoop_first_err (pre : List Msg) (m : Msg) (post : List Msg)
    (hpre : ∀ x ∈ pre, x.cmd ∉ regErrCmds ∧ x.cmd ≠ RPL_WELCOME)
    (hm : m.cmd ∈ regErrCmds) :
    (registerLoop (pre ++ m :: post)).1 =
      .error (if m.args ≠ [] then m.args.getLastD [] else CmdNames m.cmd) := by
  induction pre with
  | nil =>
    simp only [List.nil_append, registerLoop]
    rw [if_pos hm]
    by_cases ha : m.args ≠ []
    · rw [if_pos ha, if_pos ha]
    · rw [if_neg ha, if_neg ha]
  | cons x pre2 ih =>
    have hx := hpre x (by simp)
    simp only [List.cons_append, registerLoop]
    rw [if_neg hx.1, if_neg hx.2]
    by_cases hping : x.cmd = PING
    · rw [if_pos hping]
      exact ih (fun y hy => hpre y (by simp [hy]))
    · rw [if_neg hping]
      exact ih (fun y hy => hpre y (by simp [hy]))

/-- C9: during registration, if the inbound stream delivers a message
carrying one of the eight classified error numerics before any other
classified message, `registerLoop` fails with the reply's last argument as
the error text (or the `CmdNames` symbolic reply name when the reply has no
arguments), and the ready state (the server identity being recorded from a
welcome reply) is never reached. -/
theorem c9_register_error_numerics (pre : List Msg) (m : Msg) (post : List Msg)
    (hpre : ∀ x ∈ pre, x.cmd ∉ regErrCmds ∧ x.cmd ≠ RPL_WELCOME)
    (hm : m.cmd ∈ regErrCmds) :
    (registerLoop (pre ++ m :: post)).1 =
      .error (if m.args ≠ [] then m.args.getLastD [] else CmdNames m.cmd) ∧
    ∀ sid, (registerLoop (pre ++ m :: post)).1 ≠ .ok sid := by
  have h := registerLoop_first_err pre m post hpre hm
  refine ⟨h, ?_⟩
  intro sid hok
  rw [h] at hok
  cases hok

theorem c9_register_error_numerics_witness :
    (registerLoop
        [{ cmd := PING, args := [['x']] : Msg },
         { cmd := ERR_NICKNAMEINUSE,
           args := [['e'], "Nickname is already in use".toList] : Msg },
         { cmd := RPL_WELCOME, origin := "irc.example.org".toList : Msg }]).1 =
      .error "Nickname is already in use".toList ∧
    ∀ sid, (registerLoop
        [{ cmd := PING, args := [['x']] : Msg },
         { cmd := ERR_NICKNAMEINUSE,
           args := [['e'], "Nickname is already in use".toList] : Msg },
         { cmd := RPL_WELCOME, origin := "irc.example.org".toList : Msg }]).1 ≠ .ok sid := by
  have h := c9_register_error_numerics
    [{ cmd := PING, args := [['x']] : Msg }]
    { cmd := ERR_NICKNAMEINUSE,
      args := [['e'], "Nickname is already in use".toList] : Msg }
    [{ cmd := RPL_WELCOME, origin := "irc.example.org".toList : Msg }]
    (by intro x hx
        simp only [List.mem_singleton] at hx
        subst hx
        exact ⟨by decide, by decide⟩)
    (by decide)
  simpa using h

theorem splitString_not_mem (s : List Char) (d : Char) (h : d ∉ s) :
    splitString s d = (s, []) := by
  induction s with
  | nil => rfl
  | cons c rest ih =>
    simp only [splitString]
    rw [if_neg (fun hc => h (by simp [hc]))]
    rw [ih (fun hr => h (by simp [hr]))]

theorem splitString_append (a b : List Char) (d : Char) (hd : d ∉ a) (hsp : d ≠ ' ') :
    splitString (a ++ d :: b) d = (a, b) := by
  induction a with
  | nil =>
    simp only [List.nil_append, splitString, if_true]
    rw [if_neg hsp]
  | cons x a2 ih =>
    simp only [List.cons_append, splitString, List.append_eq]
    rw [if_neg (fun h => hd (by simp [h]))]
    rw [ih (fun h => hd (by simp [h]))]

theorem splitString_append_space (a b : List Char) (ha : ' ' ∉ a) :
    splitString (a ++ ' ' :: b) ' ' = (a, b.dropWhile (fun c => c = ' ')) := by
  induction a with
  | nil =>
    simp only [List.nil_append, splitString, if_true]
  | cons x a2 ih =>
    simp only [List.cons_append, splitString, List.append_eq]
    rw [if_neg (fun h => ha (by simp [h]))]
    rw [ih (fun h => ha (by simp [h]))]

theorem dropWhile_spaces_of_head (b : List Char) (h : b.head? ≠ some ' ') :
    b.dropWhile (fun c => c = ' ') = b := by
  cases b with
  | nil => rfl
  | cons x rest =>
    have hx : ¬(x = ' ') := by simpa using h
    simp [List.dropWhile_cons, hx]

theorem dropWhile_newline_of_not_mem (l : List Char) (h : ∀ c ∈ l, ¬(c = '\n')) :
    l.dropWhile (fun c => c = '\n') = l := by
  cases l with
  | nil => rfl
  | cons x rest =>
    have hx : ¬(x = '\n') := h x (by simp)
    simp [List.dropWhile_cons, hx]

theorem trimRightNewline_of_not_mem (s : List Char) (h : '\n' ∉ s) :
    trimRightNewline s = s := by
  unfold trimRightNewline
  rw [dropWhile_newline_of_not_mem s.reverse
    (fun c hc hceq => h (hceq ▸ (List.mem_reverse).mp hc))]
  exact s.reverse_reverse

theorem argString_eq_cons (args : List (List Char)) (hne : args ≠ []) :
    argString args = ' ' :: (argString args).tail := by
  cases args with
  | nil => exact absurd rfl hne
  | cons a rest =>
    cases rest with
    | nil => rfl
    | cons b rest2 => rfl

theorem argString_tail_head (args : List (List Char))
    (hmid : ∀ a ∈ args.dropLast, a ≠ [] ∧ ' ' ∉ a ∧ a.head? ≠ some ':') :
    ((argString args).tail).head? ≠ some ' ' := by
  cases args with
  | nil => simp [argString]
  | cons a rest =>
    cases rest with
    | nil => simp [argString]
    | cons b rest2 =>
      have ha := hmid a (by simp)
      simp only [argString, List.cons_append, List.tail_cons]
      cases hcase : a with
      | nil => exact absurd hcase ha.1
      | cons x a2 =>
        have hx : x ≠ ' ' := by
          intro hxe
          exact ha.2.1 (by rw [hcase, hxe]; simp)
        simp [hx]

theorem parseArgs_argString (args : List (List Char)) :
    args ≠ [] →
    (∀ a ∈ args.dropLast, a ≠ [] ∧ ' ' ∉ a ∧ a.head? ≠ some ':') →
    ∀ acc, parseArgs ((argString args).tail) acc = acc ++ args := by
  induction args with
  | nil => intro hne; exact absurd rfl hne
  | cons a args2 ih =>
    intro _ hmid acc
    cases args2 with
    | nil =>
      simp only [argString, List.tail_cons]
      rw [parseArgs]
      simp
    | cons b args3 =>
      have ha := hmid a (by simp)
      obtain ⟨x, a2, hxa⟩ : ∃ x a2, a = x :: a2 := by
        cases a with
        | nil => exact absurd rfl ha.1
        | cons x a2 => exact ⟨x, a2, rfl⟩
      subst hxa
      have hx : x ≠ ':' := by
        intro hxe
        exact ha.2.2 (by simp [hxe])
      have hxsp : ' ' ∉ x :: a2 := ha.2.1
      simp only [argString, List.cons_append, List.tail_cons]
      rw [argString_eq_cons (b :: args3) (by simp)]
      rw [parseArgs]
      rw [if_neg hx]
      rw [show x :: (a2 ++ ' ' :: (argString (b :: args3)).tail) =
        (x :: a2) ++ ' ' :: (argString (b :: args3)).tail from rfl]
      rw [splitString_append_space (x :: a2) _ hxsp]
      rw [dropWhile_spaces_of_head _ (argString_tail_head (b :: args3)
        (fun y hy => hmid y (by
          rw [List.dropLast_cons₂]
          exact List.mem_cons_of_mem _ hy)))]
      rw [ih (by simp) (fun y hy => hmid y (by
          rw [List.dropLast_cons₂]
          exact List.mem_cons_of_mem _ hy)) (acc ++ [x :: a2])]
      rw [List.append_assoc]
      simp

theorem not_mem_argString (x : Char) (args : List (List Char))
    (hx1 : x ≠ ' ') (hx2 : x ≠ ':')
    (h : ∀ a ∈ args, x ∉ a) : x ∉ argString args := by
  induction args with
  | nil => simp [argString]
  | cons a rest ih =>
    cases rest with
    | nil =>
      intro hmem
      simp only [argString, List.mem_cons] at hmem
      rcases hmem with h1 | h1 | h1
      · exact hx1 h1
      · exact hx2 h1
      · exact h a (by simp) h1
    | cons b rest2 =>
      intro hmem
      simp only [argString, List.cons_append, List.mem_cons, List.mem_append] at hmem
      rcases hmem with h1 | h1 | h1
      · exact hx1 h1
      · exact h a (by simp) h1
      · exact ih (fun y hy => h y (by simp [hy])) h1

theorem parse_cmd_body (cmd : List Char) (args : List (List Char))
    (hc2 : ' ' ∉ cmd)
    (hmid : ∀ a ∈ args.dropLast, a ≠ [] ∧ ' ' ∉ a ∧ a.head? ≠ some ':') :
    (splitString (cmd ++ argString args) ' ').1 = cmd ∧
    parseArgs (splitString (cmd ++ argString args) ' ').2 [] = args := by
  cases args with
  | nil =>
    rw [show argString [] = [] from rfl, List.append_nil]
    rw [splitString_not_mem cmd ' ' hc2]
    refine ⟨rfl, ?_⟩
    show parseArgs [] [] = []
    rw [parseArgs]
  | cons a args2 =>
    rw [argString_eq_cons (a :: args2) (by simp)]
    rw [splitString_append_space cmd _ hc2]
    rw [dropWhile_spaces_of_head _ (argString_tail_head (a :: args2) hmid)]
    exact ⟨rfl, parseArgs_argString (a :: args2) (by simp) hmid []⟩

/-- A field is clean when it contains none of the bytes the wire format
reserves: NUL, CR, LF. -/
def cleanField (s : List Char) : Prop :=
  Char.ofNat 0 ∉ s ∧ '\r' ∉ s ∧ '\n' ∉ s

instance (s : List Char) : Decidable (cleanField s) := by
  unfold cleanField
  infer_instance

/-- The length and character limits of the wire grammar
(`[':' origin ['!' user '@' host] SP] command *( SP middle ) [SP ':' trailing] CRLF`),
under which the round-trip claim is stated: `raw` unset; a non-empty
command with no space and no leading colon; origin, user and host free of
the delimiters that introduce or end the prefix pieces (space, `'!'`,
`'@'`), with user and host present only as part of a full
`origin!user@host` prefix; middle (non-final) arguments non-empty,
space-free and not starting with a colon; every field free of NUL, CR and
LF; and the assembled line within the 510-byte serialization bound. -/
def wellFormedMsg (m : Msg) : Prop :=
  m.raw = [] ∧
  m.cmd ≠ [] ∧ ' ' ∉ m.cmd ∧ m.cmd.head? ≠ some ':' ∧ cleanField m.cmd ∧
  ' ' ∉ m.origin ∧ '!' ∉ m.origin ∧ cleanField m.origin ∧
  ' ' ∉ m.user ∧ '!' ∉ m.user ∧ '@' ∉ m.user ∧ cleanField m.user ∧
  ' ' ∉ m.host ∧ '!' ∉ m.host ∧ '@' ∉ m.host ∧ cleanField m.host ∧
  (m.user ≠ [] → m.origin ≠ []) ∧ (m.host ≠ [] → m.user ≠ []) ∧
  (∀ a ∈ m.args.dropLast, a ≠ [] ∧ ' ' ∉ a ∧ a.head? ≠ some ':') ∧
  (∀ a ∈ m.args, cleanField a) ∧
  (rawCandidate m).length ≤ MaxMsgLength - MsgMarker.length

instance (m : Msg) : Decidable (wellFormedMsg m) := by
  unfold wellFormedMsg
  infer_instance

/-- C1: for every message m whose raw field is empty and whose origin,
user, host, command and arguments are within the length and character
limits of the wire grammar (`wellFormedMsg`), parsing the string produced
by serializing m succeeds and yields a message whose command and arguments
equal those of m exactly, and whose origin, user and host also equal m's
(in particular they are reproduced whenever m set them). -/
theorem c1_serialize_parse_roundtrip (m : Msg) (h : wellFormedMsg m) :
    ∃ s m2, RawString m = .ok s ∧ ParseMsg s = some m2 ∧
      m2.cmd = m.cmd ∧ m2.args = m.args ∧
      m2.origin = m.origin ∧ m2.user = m.user ∧ m2.host = m.host := by
  obtain ⟨hraw, hcmdne, hcmdsp, hcmdcol, hcmdcf, hosp, hoex, hocf, husp, huex, huat, hucf,
    hhsp, hhex, hhat, hhcf, huo, hhu, hmid, hclean, hlen⟩ := h
  obtain ⟨y, cmd2, hcmde⟩ : ∃ y cmd2, m.cmd = y :: cmd2 := by
    cases hc : m.cmd with
    | nil => exact absurd hc hcmdne
    | cons y cmd2 => exact ⟨y, cmd2, rfl⟩
  have hy_colon : y ≠ ':' := by
    intro hye
    exact hcmdcol (by rw [hcmde, hye]; rfl)
  have hy_space : y ≠ ' ' := by
    intro hye
    exact hcmdsp (by rw [hcmde, hye]; simp)
  have hbody := parse_cmd_body m.cmd m.args hcmdsp hmid
  have hbodyhead : (m.cmd ++ argString m.args).head? ≠ some ' ' := by
    rw [hcmde, List.cons_append]
    simp [hy_space]
  have hnlA : '\n' ∉ argString m.args :=
    not_mem_argString '\n' m.args (by decide) (by decide)
      (fun a ha => (hclean a ha).2.2)
  have hokgen : ∀ hnl : '\n' ∉ rawCandidate m, RawString m = .ok (rawCandidate m) := by
    intro hnl
    rw [RawString, if_neg (Nat.not_lt.mpr hlen)]
    rw [trimRightNewline_of_not_mem _ hnl]
  by_cases ho : m.origin = []
  · -- no prefix is serialized
    have huser : m.user = [] := by
      by_contra hu
      exact (huo hu) ho
    have hhost : m.host = [] := by
      by_contra hh
      exact (huo (hhu hh)) ho
    have hcand : rawCandidate m = m.cmd ++ argString m.args := by
      rw [rawCandidate, if_neg (by simp [hraw]), if_neg (by simp [ho])]
      simp
    have hnl : '\n' ∉ rawCandidate m := by
      rw [hcand]
      intro hmem
      simp [hcmdcf.2.2, hnlA] at hmem
    refine ⟨rawCandidate m,
      { raw := rawCandidate m, origin := [], user := [], host := [],
        cmd := m.cmd, args := m.args },
      hokgen hnl, ?_, rfl, rfl, ho.symm, huser.symm, hhost.symm⟩
    rw [hcand, hcmde, List.cons_append, ParseMsg, if_neg hy_colon]
    rw [← List.cons_append, ← hcmde]
    rw [hbody.1, hbody.2]
  · -- a prefix is serialized
    by_cases hu : m.user = []
    · -- origin only
      have hhost : m.host = [] := by
        by_contra hh
        exact (hhu hh) hu
      have hcand : rawCandidate m =
          ':' :: (m.origin ++ ' ' :: (m.cmd ++ argString m.args)) := by
        rw [rawCandidate, if_neg (by simp [hraw]), if_pos (by simpa using ho)]
        rw [if_neg (by simp [hu])]
        simp
      have hnl : '\n' ∉ rawCandidate m := by
        rw [hcand]
        intro hmem
        simp [hocf.2.2, hcmdcf.2.2, hnlA] at hmem
      refine ⟨rawCandidate m,
        { raw := rawCandidate m, origin := m.origin, user := [], host := [],
          cmd := m.cmd, args := m.args },
        hokgen hnl, ?_, rfl, rfl, rfl, hu.symm, hhost.symm⟩
      rw [hcand, ParseMsg, if_pos rfl]
      simp only [List.tail_cons]
      rw [splitString_append_space m.origin _ hosp]
      rw [dropWhile_spaces_of_head _ hbodyhead]
      rw [splitString_not_mem m.origin '!' hoex]
      rw [show splitString [] '@' = ([], []) from rfl]
      rw [hbody.1, hbody.2]
    · -- full origin!user@host prefix
      have hpfxsp : ' ' ∉ m.origin ++ '!' :: (m.user ++ '@' :: m.host) := by
        intro hmem
        rcases List.mem_append.mp hmem with h1 | h1
        · exact hosp h1
        · rcases List.mem_cons.mp h1 with h2 | h2
          · exact absurd h2.symm (by decide)
          · rcases List.mem_append.mp h2 with h3 | h3
            · exact husp h3
            · rcases List.mem_cons.mp h3 with h4 | h4
              · exact absurd h4.symm (by decide)
              · exact hhsp h4
      have hcand : rawCandidate m =
          ':' :: ((m.origin ++ '!' :: (m.user ++ '@' :: m.host)) ++
            ' ' :: (m.cmd ++ argString m.args)) := by
        rw [rawCandidate, if_neg (by simp [hraw]), if_pos (by simpa using ho)]
        rw [if_pos (by simpa using hu)]
        simp
      have hnl : '\n' ∉ rawCandidate m := by
        rw [hcand]
        intro hmem
        simp [hocf.2.2, hucf.2.2, hhcf.2.2, hcmdcf.2.2, hnlA] at hmem
      refine ⟨rawCandidate m,
        { raw := rawCandidate m, origin := m.origin, user := m.user, host := m.host,
          cmd := m.cmd, args := m.args },
        hokgen hnl, ?_, rfl, rfl, rfl, rfl, rfl⟩
      rw [hcand, ParseMsg, if_pos rfl]
      simp only [List.tail_cons]
      rw [splitString_append_space _ _ hpfxsp]
      rw [dropWhile_spaces_of_head _ hbodyhead]
      rw [splitString_append m.origin _ '!' hoex (by decide)]
      rw [splitString_append m.user _ '@' huat (by decide)]
      rw [hbody.1, hbody.2]

theorem c1_serialize_parse_roundtrip_witness :
    ∃ s m2,
      RawString { origin := "e".toList, user := "foo".toList, host := "bar.com".toList,
                  cmd := "JOIN".toList,
                  args := ["#test54321".toList, "foo bar".toList] : Msg } = .ok s ∧
      ParseMsg s = some m2 ∧
      m2.cmd = "JOIN".toList ∧
      m2.args = ["#test54321".toList, "foo bar".toList] ∧
      m2.origin = "e".toList ∧ m2.user = "foo".toList ∧ m2.host = "bar.com".toList :=
  c1_serialize_parse_roundtrip
    { origin := "e".toList, user := "foo".toList, host := "bar.com".toList,
      cmd := "JOIN".toList, args := ["#test54321".toList, "foo bar".toList] : Msg }
    (by decide)

end Velour
